import Mathlib

/-
Verification of the vocabulary extraction heuristic of the
twittermonitoring repository (src/upload-sample-data.js).

Strings are modelled as lists of Unicode scalar values.  All character
classes involved (whitespace, word characters, Latin letters, the three
target-script ranges) lie in the basic multilingual plane, where
JavaScript UTF-16 code units and scalar values coincide, so the model is
faithful on those classes.
-/

namespace TwitterMonitor

/-- Whitespace as matched by the JavaScript regex whitespace class and by
String.prototype.trim: tab through carriage return, space, no-break
space, Ogham space mark, the general punctuation spaces, line separator,
paragraph separator, narrow no-break space, medium mathematical space,
ideographic space and the byte order mark. -/
def isJsWhitespace (c : Char) : Bool :=
  (0x9 ≤ c.toNat && c.toNat ≤ 0xD) || c.toNat = 0x20 || c.toNat = 0xA0 ||
  c.toNat = 0x1680 || (0x2000 ≤ c.toNat && c.toNat ≤ 0x200A) ||
  c.toNat = 0x2028 || c.toNat = 0x2029 || c.toNat = 0x202F ||
  c.toNat = 0x205F || c.toNat = 0x3000 || c.toNat = 0xFEFF

/-- Word characters as matched by the JavaScript regex word class:
ASCII digits, upper and lower case letters, and underscore. -/
def isWordChar (c : Char) : Bool :=
  (0x30 ≤ c.toNat && c.toNat ≤ 0x39) || (0x41 ≤ c.toNat && c.toNat ≤ 0x5A) ||
  c.toNat = 0x5F || (0x61 ≤ c.toNat && c.toNat ≤ 0x7A)

/-- Basic Latin letters, the class [a-zA-Z] used by the hasEnglish test
in the source. -/
def isLatinLetter (c : Char) : Bool :=
  (0x41 ≤ c.toNat && c.toNat ≤ 0x5A) || (0x61 ≤ c.toNat && c.toNat ≤ 0x7A)

/-- Target-script characters: Hiragana U+3040 to U+309F, Katakana U+30A0
to U+30FF, CJK ideographs U+4E00 to U+9FAF, the character class used by
every parseVocabulary variant in the source. -/
def isTargetChar (c : Char) : Bool :=
  (0x3040 ≤ c.toNat && c.toNat ≤ 0x309F) ||
  (0x30A0 ≤ c.toNat && c.toNat ≤ 0x30FF) ||
  (0x4E00 ≤ c.toNat && c.toNat ≤ 0x9FAF)

/-- The hasEnglish test of the source: some character is a Latin letter. -/
def hasEnglish (l : List Char) : Bool := l.any isLatinLetter

/-- The hasJapanese test of the source: some character is target-script. -/
def hasJapanese (l : List Char) : Bool := l.any isTargetChar

/-- After the literal http, the rest of the URL scheme: either the letter
s followed by colon slash slash, or colon slash slash directly.  This is
the backtracking behaviour of the optional s in the URL regex. -/
def schemeRest : List Char → Option (List Char)
  | 's' :: ':' :: '/' :: '/' :: r => some r
  | ':' :: '/' :: '/' :: r => some r
  | _ => none

/-- Match of the URL regex (http, optional s, colon slash slash, then one
or more non-whitespace characters, greedy) at the head of the list;
returns the remainder after the match. -/
def urlRest (l : List Char) : Option (List Char) :=
  match l with
  | 'h' :: 't' :: 't' :: 'p' :: rest =>
    match schemeRest rest with
    | some r =>
      match r with
      | [] => none
      | c :: _ =>
        if isJsWhitespace c then none
        else some (r.dropWhile (fun d => !isJsWhitespace d))
    | none => none
  | _ => none

/-- Adjacent pair starting a mention match: an at sign followed by a word
character. -/
def mentionPair (a b : Char) : Bool := a = '@' && isWordChar b

/-- Adjacent pair starting a hashtag match: a hash sign followed by a word
character. -/
def tagPair (a b : Char) : Bool := a = '#' && isWordChar b

/-- Match of the mention regex (at sign followed by one or more word
characters, greedy) at the head of the list. -/
def mentionRest : List Char → Option (List Char)
  | a :: c :: r =>
    if mentionPair a c then some ((c :: r).dropWhile isWordChar) else none
  | _ => none

/-- Match of the hashtag regex (hash sign followed by one or more word
characters, greedy) at the head of the list. -/
def tagRest : List Char → Option (List Char)
  | a :: c :: r =>
    if tagPair a c then some ((c :: r).dropWhile isWordChar) else none
  | _ => none

/-- Global regex replace by the empty string: scan left to right, at each
position either remove a match and continue right after it, or keep the
character and move one position to the right.  The Nat argument is fuel;
every use passes fuel at least the length of the list, and a match
consumes at least one character, so the fuel never runs out and the
recursion is structural. -/
def removeByF (m : List Char → Option (List Char)) : Nat → List Char → List Char
  | 0, l => l
  | _ + 1, [] => []
  | n + 1, c :: cs =>
    match m (c :: cs) with
    | some rest => removeByF m n rest
    | none => c :: removeByF m n cs

/-- Removal of every URL match, the first replace of the source. -/
def removeUrls (l : List Char) : List Char := removeByF urlRest l.length l

/-- Removal of every mention match, the second replace of the source. -/
def removeMentions (l : List Char) : List Char := removeByF mentionRest l.length l

/-- Removal of every hashtag match, the third replace of the source. -/
def removeTags (l : List Char) : List Char := removeByF tagRest l.length l

/-- Removal of trailing JavaScript whitespace. -/
def trimEnd : List Char → List Char
  | [] => []
  | c :: cs =>
    match trimEnd cs with
    | [] => if isJsWhitespace c then [] else [c]
    | d :: r => c :: d :: r

/-- String.prototype.trim: remove leading and trailing whitespace. -/
def trimChars (l : List Char) : List Char := trimEnd (l.dropWhile isJsWhitespace)

/-- The cleanText computed by every parseVocabulary variant: remove URL,
mention and hashtag matches, then trim. -/
def cleanTextOf (text : List Char) : List Char :=
  trimChars (removeTags (removeMentions (removeUrls text)))

/-- The script-split extractor with term validation, the second
parseVocabulary variant of the source.  The source locates the first
target-script character with String.match and splits with substring at
its index; splitting a list at the index of the first character
satisfying a predicate is takeWhile and dropWhile of the negation.  The
final condition mirrors the source test hasEnglish and hasJapanese and
englishPart and japanesePart, a JavaScript string being truthy exactly
when it is non-empty. -/
def parseVocabulary (text : List Char) : Option (List Char × List Char) :=
  let cleanText := cleanTextOf text
  if hasJapanese cleanText then
    let englishPart := trimChars (cleanText.takeWhile (fun c => !isTargetChar c))
    let japanesePart := trimChars (cleanText.dropWhile (fun c => !isTargetChar c))
    if hasEnglish englishPart && hasJapanese japanesePart &&
        !englishPart.isEmpty && !japanesePart.isEmpty then
      some (englishPart, japanesePart)
    else none
  else none

/-- The server-loop extractor, the third parseVocabulary variant of the
source: it tests hasEnglish and hasJapanese on the whole cleaned text,
then finds the first target-script character again, splits there, and
only requires both trimmed parts to be non-empty. -/
def parseVocabularyServer (text : List Char) : Option (List Char × List Char) :=
  let cleanText := cleanTextOf text
  if hasEnglish cleanText && hasJapanese cleanText then
    if hasJapanese cleanText then
      let english := trimChars (cleanText.takeWhile (fun c => !isTargetChar c))
      let japanese := trimChars (cleanText.dropWhile (fun c => !isTargetChar c))
      if !english.isEmpty && !japanese.isEmpty then some (english, japanese)
      else none
    else none
  else none

/-- Scan for an adjacent pair of characters satisfying a two-place test;
used to state that a text contains no mention or hashtag match. -/
def hasPair (p : Char → Char → Bool) : List Char → Bool
  | a :: b :: r => p a b || hasPair p (b :: r)
  | _ => false

/-- The head of the list, when present, is not a word character. -/
def headNW : List Char → Prop
  | [] => True
  | c :: _ => isWordChar c = false

/-- Properties shared by the three matchers: the remainder of a match is
a proper suffix, and it starts with a non-word character (for the URL
matcher it starts with whitespace). -/
def MatcherOk (m : List Char → Option (List Char)) : Prop :=
  ∀ l r, m l = some r → r <:+ l ∧ r.length < l.length ∧ headNW r

/-- Failure information at one scan position: the pair test fails between
the head character and the next one, when there is a next one. -/
def pairFail (p : Char → Char → Bool) (a : Char) : List Char → Prop
  | [] => True
  | b :: _ => p a b = false

/-- Relation between a scanned list and the output of the scanner: the
output is empty, or keeps the head of the input, or starts with a
non-word character. -/
def headOk (l out : List Char) : Prop :=
  out = [] ∨ (∃ c t r, l = c :: t ∧ out = c :: r) ∨
    (∃ c r, out = c :: r ∧ isWordChar c = false)

/-! Character class facts. -/

theorem ws_not_word {c : Char} (h : isJsWhitespace c = true) : isWordChar c = false := by
  simp only [isJsWhitespace, Bool.or_eq_true, Bool.and_eq_true, decide_eq_true_eq] at h
  simp only [isWordChar, Bool.or_eq_false_iff, Bool.and_eq_false_iff,
    decide_eq_false_iff_not]
  omega

theorem target_not_ws {c : Char} (h : isTargetChar c = true) : isJsWhitespace c = false := by
  simp only [isTargetChar, Bool.or_eq_true, Bool.and_eq_true, decide_eq_true_eq] at h
  simp only [isJsWhitespace, Bool.or_eq_false_iff, Bool.and_eq_false_iff,
    decide_eq_false_iff_not]
  omega

theorem latin_not_ws {c : Char} (h : isLatinLetter c = true) : isJsWhitespace c = false := by
  simp only [isLatinLetter, Bool.or_eq_true, Bool.and_eq_true, decide_eq_true_eq] at h
  simp only [isJsWhitespace, Bool.or_eq_false_iff, Bool.and_eq_false_iff,
    decide_eq_false_iff_not]
  omega

/-! Basic list facts. -/

theorem dropWhile_head_false {p : Char → Bool} :
    ∀ {l : List Char} {c : Char} {r : List Char},
      l.dropWhile p = c :: r → p c = false := by
  intro l
  induction l with
  | nil => intro c r h; simp [List.dropWhile] at h
  | cons a as ih =>
    intro c r h
    by_cases ha : p a
    · rw [List.dropWhile_cons_of_pos ha] at h; exact ih h
    · rw [List.dropWhile_cons_of_neg ha] at h
      cases h
      exact Bool.of_not_eq_true ha

theorem dropWhile_of_head_false {p : Char → Bool} {l : List Char}
    (h : ∀ c r, l = c :: r → p c = false) : l.dropWhile p = l := by
  cases l with
  | nil => rfl
  | cons a as =>
    have := h a as rfl
    simp [List.dropWhile, this]

theorem any_true_of_sublist {p : Char → Bool} {s l : List Char}
    (hs : List.Sublist s l) (h : s.any p = true) : l.any p = true := by
  rw [List.any_eq_true] at h ⊢
  obtain ⟨x, hx, hpx⟩ := h
  exact ⟨x, hs.subset hx, hpx⟩

theorem any_false_of_sublist {p : Char → Bool} {s l : List Char}
    (hs : List.Sublist s l) (h : l.any p = false) : s.any p = false := by
  by_contra hc
  rw [Bool.not_eq_false] at hc
  rw [any_true_of_sublist hs hc] at h
  cases h

theorem mem_dropWhile_of_not {p : Char → Bool} {c : Char} :
    ∀ {l : List Char}, c ∈ l → p c = false → c ∈ l.dropWhile p := by
  intro l
  induction l with
  | nil => intro h _; cases h
  | cons a as ih =>
    intro hmem hpc
    by_cases ha : p a
    · rw [List.dropWhile_cons_of_pos ha]
      rcases List.mem_cons.mp hmem with rfl | hmem
      · rw [ha] at hpc; cases hpc
      · exact ih hmem hpc
    · rw [List.dropWhile_cons_of_neg ha]
      exact hmem

theorem takeWhile_append_all {p : Char → Bool} {b : Char} {B : List Char}
    (hb : p b = false) :
    ∀ {A : List Char}, A.all p = true → (A ++ b :: B).takeWhile p = A := by
  intro A
  induction A with
  | nil => intro _; simp [List.takeWhile, hb]
  | cons a as ih =>
    intro hall
    rw [List.all_cons, Bool.and_eq_true] at hall
    simp only [List.cons_append, List.takeWhile_cons_of_pos hall.1]
    rw [ih hall.2]

theorem dropWhile_append_all {p : Char → Bool} {b : Char} {B : List Char}
    (hb : p b = false) :
    ∀ {A : List Char}, A.all p = true → (A ++ b :: B).dropWhile p = b :: B := by
  intro A
  induction A with
  | nil => simp [List.dropWhile, hb]
  | cons a as ih =>
    intro hall
    rw [List.all_cons, Bool.and_eq_true] at hall
    simp only [List.cons_append, List.dropWhile_cons_of_pos hall.1]
    exact ih hall.2

theorem dropWhile_append_of_mem {p : Char → Bool} {x : Char} {B : List Char}
    (hpx : p x = false) :
    ∀ {A : List Char}, x ∈ A → (A ++ B).dropWhile p = A.dropWhile p ++ B := by
  intro A
  induction A with
  | nil => intro h; cases h
  | cons a as ih =>
    intro hmem
    by_cases ha : p a
    · rw [List.cons_append, List.dropWhile_cons_of_pos ha,
        List.dropWhile_cons_of_pos ha]
      rcases List.mem_cons.mp hmem with rfl | hmem
      · rw [ha] at hpx; cases hpx
      · exact ih hmem
    · rw [List.cons_append, List.dropWhile_cons_of_neg ha,
        List.dropWhile_cons_of_neg ha, List.cons_append]

/-! Facts about the adjacent-pair scan. -/

theorem hasPair_nil {p : Char → Char → Bool} : hasPair p [] = false := rfl

theorem hasPair_one {p : Char → Char → Bool} {a : Char} : hasPair p [a] = false := rfl

theorem hasPair_cons_cons {p : Char → Char → Bool} {a b : Char} {r : List Char} :
    hasPair p (a :: b :: r) = (p a b || hasPair p (b :: r)) := rfl

theorem hasPair_cons_of_tail {p : Char → Char → Bool} {a : Char} {l : List Char}
    (h : hasPair p l = true) : hasPair p (a :: l) = true := by
  cases l with
  | nil => cases h
  | cons b r => rw [hasPair_cons_cons, Bool.or_eq_true]; exact .inr h

theorem hasPair_suffix {p : Char → Char → Bool} {s l : List Char}
    (hs : s <:+ l) (h : hasPair p s = true) : hasPair p l = true := by
  obtain ⟨t, rfl⟩ := hs
  induction t with
  | nil => exact h
  | cons a t' ih => exact hasPair_cons_of_tail ih

theorem hasPair_suffix_false {p : Char → Char → Bool} {s l : List Char}
    (hs : s <:+ l) (h : hasPair p l = false) : hasPair p s = false := by
  by_contra hc
  rw [Bool.not_eq_false] at hc
  rw [hasPair_suffix hs hc] at h
  cases h

theorem hasPair_cons_false {p : Char → Char → Bool} {a : Char} {l : List Char}
    (h : hasPair p (a :: l) = false) : hasPair p l = false := by
  cases l with
  | nil => rfl
  | cons b r =>
    rw [hasPair_cons_cons, Bool.or_eq_false_iff] at h
    exact h.2

theorem hasPair_head_false {p : Char → Char → Bool} {a b : Char} {r : List Char}
    (h : hasPair p (a :: b :: r) = false) : p a b = false := by
  rw [hasPair_cons_cons, Bool.or_eq_false_iff] at h
  exact h.1

/-! Facts about trimEnd and trimChars. -/

theorem trimEnd_sublist : ∀ l : List Char, List.Sublist (trimEnd l) l := by
  intro l
  induction l with
  | nil => exact List.Sublist.refl _
  | cons c cs ih =>
    rw [trimEnd]
    cases h : trimEnd cs with
    | nil =>
      by_cases hc : isJsWhitespace c = true
      · simp only [hc, if_true]
        exact List.nil_sublist _
      · simp only [hc, if_false]
        exact List.Sublist.cons₂ c (List.nil_sublist cs)
    | cons d r =>
      rw [h] at ih
      exact List.Sublist.cons₂ c ih

theorem trimEnd_head :
    ∀ {l : List Char} {c : Char} {r : List Char},
      trimEnd l = c :: r → ∃ t, l = c :: t := by
  intro l c r h
  cases l with
  | nil => cases h
  | cons a as =>
    rw [trimEnd] at h
    cases hh : trimEnd as with
    | nil =>
      rw [hh] at h
      by_cases ha : isJsWhitespace a = true
      · rw [if_pos ha] at h
        exact absurd h.symm (List.cons_ne_nil c r)
      · rw [if_neg ha] at h
        cases h
        exact ⟨as, rfl⟩
    | cons d r' =>
      rw [hh] at h
      cases h
      exact ⟨as, rfl⟩

theorem trimEnd_idem : ∀ l : List Char, trimEnd (trimEnd l) = trimEnd l := by
  intro l
  induction l with
  | nil => rfl
  | cons c cs ih =>
    rw [trimEnd]
    cases h : trimEnd cs with
    | nil =>
      by_cases hc : isJsWhitespace c = true
      · rw [if_pos hc]; rfl
      · rw [if_neg hc]
        show trimEnd [c] = [c]
        rw [trimEnd]
        rw [show trimEnd [] = [] from rfl, if_neg hc]
    | cons d r =>
      rw [h] at ih
      rw [trimEnd, ih]

theorem mem_trimEnd {x : Char} (hx : isJsWhitespace x = false) :
    ∀ {l : List Char}, x ∈ l → x ∈ trimEnd l := by
  intro l
  induction l with
  | nil => intro h; cases h
  | cons c cs ih =>
    intro hmem
    rw [trimEnd]
    cases h : trimEnd cs with
    | nil =>
      rcases List.mem_cons.mp hmem with rfl | hmem
      · rw [if_neg (by rw [hx]; exact Bool.false_ne_true)]
        exact List.mem_cons_self _ _
      · have := ih hmem
        rw [h] at this
        cases this
    | cons d r =>
      rcases List.mem_cons.mp hmem with rfl | hmem
      · exact List.mem_cons_self _ _
      · have := ih hmem
        rw [h] at this
        exact List.mem_cons_of_mem _ this

theorem trimEnd_append {B : List Char} {x : Char} (hxB : x ∈ B)
    (hx : isJsWhitespace x = false) :
    ∀ A : List Char, trimEnd (A ++ B) = A ++ trimEnd B := by
  have hne : trimEnd B ≠ [] := by
    intro h0
    have := mem_trimEnd hx hxB
    rw [h0] at this
    cases this
  intro A
  induction A with
  | nil => rfl
  | cons a A2 ih =>
    rw [List.cons_append, trimEnd, ih]
    cases hAB : A2 ++ trimEnd B with
    | nil =>
      rcases List.append_eq_nil.mp hAB with ⟨_, h2⟩
      exact absurd h2 hne
    | cons d r => rw [List.cons_append, hAB]

theorem hasPair_trimEnd {p : Char → Char → Bool} :
    ∀ {l : List Char}, hasPair p (trimEnd l) = true → hasPair p l = true := by
  intro l
  induction l with
  | nil => intro h; cases h
  | cons c cs ih =>
    intro h
    rw [trimEnd] at h
    cases hh : trimEnd cs with
    | nil =>
      rw [hh] at h
      by_cases hc : isJsWhitespace c = true
      · rw [if_pos hc] at h
        cases h
      · rw [if_neg hc] at h
        rw [hasPair_one] at h
        cases h
    | cons d r =>
      rw [hh] at h
      obtain ⟨t, rfl⟩ := trimEnd_head hh
      rw [hasPair_cons_cons, Bool.or_eq_true] at h
      rcases h with h1 | h2
      · rw [hasPair_cons_cons, Bool.or_eq_true]
        exact .inl h1
      · have := ih (by rw [hh]; exact h2)
        exact hasPair_cons_of_tail this

theorem trimChars_sublist (l : List Char) : List.Sublist (trimChars l) l :=
  (trimEnd_sublist _).trans (List.dropWhile_suffix _).sublist

theorem trimChars_head {l : List Char} {c : Char} {r : List Char}
    (h : trimChars l = c :: r) : isJsWhitespace c = false := by
  obtain ⟨t, ht⟩ := trimEnd_head h
  exact dropWhile_head_false ht

theorem trimChars_idem (l : List Char) : trimChars (trimChars l) = trimChars l := by
  show trimEnd ((trimChars l).dropWhile isJsWhitespace) = trimChars l
  rw [dropWhile_of_head_false (fun c r h => trimChars_head (l := l) (by rw [h]))]
  show trimEnd (trimEnd (l.dropWhile isJsWhitespace)) = trimChars l
  rw [trimEnd_idem]
  rfl

theorem mem_trimChars {x : Char} {l : List Char} (hmem : x ∈ l)
    (hx : isJsWhitespace x = false) : x ∈ trimChars l :=
  mem_trimEnd hx (mem_dropWhile_of_not hmem hx)

theorem hasPair_trimChars {p : Char → Char → Bool} {l : List Char}
    (h : hasPair p (trimChars l) = true) : hasPair p l = true :=
  hasPair_suffix (List.dropWhile_suffix _) (hasPair_trimEnd h)

/-! Properties of the three matchers. -/

theorem schemeRest_some {l r : List Char} (h : schemeRest l = some r) :
    r <:+ l ∧ r.length + 3 ≤ l.length := by
  unfold schemeRest at h
  split at h
  · cases h
    exact ⟨⟨['s', ':', '/', '/'], rfl⟩, by simp [List.length_cons]⟩
  · cases h
    exact ⟨⟨[':', '/', '/'], rfl⟩, by simp [List.length_cons]⟩
  · cases h

theorem urlRest_ok : MatcherOk urlRest := by
  intro l r h
  unfold urlRest at h
  split at h
  · rename_i rest
    split at h
    · rename_i r0 hs
      split at h
      · cases h
      · rename_i c r1
        split at h
        · cases h
        · rename_i hc
          cases h
          obtain ⟨hsuf, hlen⟩ := schemeRest_some hs
          refine ⟨?_, ?_, ?_⟩
          · exact (List.dropWhile_suffix _).trans (hsuf.trans ⟨['h', 't', 't', 'p'], rfl⟩)
          · have h1 := (List.IsSuffix.sublist
              (List.dropWhile_suffix (l := c :: r1) (fun d => !isJsWhitespace d))).length_le
            simp only [List.length_cons] at h1 hlen ⊢
            omega
          · cases hd : (c :: r1).dropWhile (fun d => !isJsWhitespace d) with
            | nil => trivial
            | cons e es =>
              have he := dropWhile_head_false hd
              show isWordChar e = false
              exact ws_not_word (by
                cases hwe : isJsWhitespace e
                · rw [hwe] at he; cases he
                · rfl)
    · cases h
  · cases h

theorem mentionRest_ok : MatcherOk mentionRest := by
  intro l r h
  unfold mentionRest at h
  split at h
  · rename_i a c cs
    by_cases hp : mentionPair a c = true
    · rw [if_pos hp] at h
      cases h
      refine ⟨?_, ?_, ?_⟩
      · exact (List.dropWhile_suffix _).trans ⟨[a], rfl⟩
      · have h1 := (List.IsSuffix.sublist
          (List.dropWhile_suffix (l := c :: cs) isWordChar)).length_le
        simp only [List.length_cons] at h1 ⊢
        omega
      · cases hd : (c :: cs).dropWhile isWordChar with
        | nil => trivial
        | cons e es =>
          show isWordChar e = false
          exact dropWhile_head_false hd
    · rw [if_neg hp] at h; cases h
  · cases h

theorem tagRest_ok : MatcherOk tagRest := by
  intro l r h
  unfold tagRest at h
  split at h
  · rename_i a c cs
    by_cases hp : tagPair a c = true
    · rw [if_pos hp] at h
      cases h
      refine ⟨?_, ?_, ?_⟩
      · exact (List.dropWhile_suffix _).trans ⟨[a], rfl⟩
      · have h1 := (List.IsSuffix.sublist
          (List.dropWhile_suffix (l := c :: cs) isWordChar)).length_le
        simp only [List.length_cons] at h1 ⊢
        omega
      · cases hd : (c :: cs).dropWhile isWordChar with
        | nil => trivial
        | cons e es =>
          show isWordChar e = false
          exact dropWhile_head_false hd
    · rw [if_neg hp] at h; cases h
  · cases h

theorem mentionRest_none_pairFail {a : Char} {cs : List Char}
    (h : mentionRest (a :: cs) = none) : pairFail mentionPair a cs := by
  cases cs with
  | nil => trivial
  | cons b r =>
    simp only [mentionRest] at h
    by_cases hp : mentionPair a b = true
    · rw [if_pos hp] at h; cases h
    · show mentionPair a b = false
      exact Bool.of_not_eq_true hp

theorem tagRest_none_pairFail {a : Char} {cs : List Char}
    (h : tagRest (a :: cs) = none) : pairFail tagPair a cs := by
  cases cs with
  | nil => trivial
  | cons b r =>
    simp only [tagRest] at h
    by_cases hp : tagPair a b = true
    · rw [if_pos hp] at h; cases h
    · show tagPair a b = false
      exact Bool.of_not_eq_true hp

theorem mention_none_of_noPair {l : List Char} (h : hasPair mentionPair l = false) :
    ∀ s, s <:+ l → mentionRest s = none := by
  intro s hs
  cases s with
  | nil => rfl
  | cons a cs =>
    cases cs with
    | nil => rfl
    | cons b r =>
      have hp : mentionPair a b = false :=
        hasPair_head_false (hasPair_suffix_false hs h)
      simp only [mentionRest]
      rw [if_neg (show ¬mentionPair a b = true by rw [hp]; exact Bool.false_ne_true)]

theorem tag_none_of_noPair {l : List Char} (h : hasPair tagPair l = false) :
    ∀ s, s <:+ l → tagRest s = none := by
  intro s hs
  cases s with
  | nil => rfl
  | cons a cs =>
    cases cs with
    | nil => rfl
    | cons b r =>
      have hp : tagPair a b = false :=
        hasPair_head_false (hasPair_suffix_false hs h)
      simp only [tagRest]
      rw [if_neg (show ¬tagPair a b = true by rw [hp]; exact Bool.false_ne_true)]

theorem mentionPair_of_word {a b : Char} (hw : isWordChar b = false) :
    mentionPair a b = false := by
  unfold mentionPair
  rw [hw, Bool.and_false]

theorem tagPair_of_word {a b : Char} (hw : isWordChar b = false) :
    tagPair a b = false := by
  unfold tagPair
  rw [hw, Bool.and_false]

/-! Facts about the generic scanner. -/

theorem removeByF_nil {m : List Char → Option (List Char)} :
    ∀ n, removeByF m n [] = [] := by
  intro n
  cases n <;> rfl

theorem removeByF_sublist {m : List Char → Option (List Char)} (hm : MatcherOk m) :
    ∀ (n : Nat) (l : List Char), List.Sublist (removeByF m n l) l := by
  intro n
  induction n with
  | zero => intro l; exact List.Sublist.refl _
  | succ n ih =>
    intro l
    cases l with
    | nil => exact List.Sublist.refl _
    | cons c cs =>
      rw [removeByF]
      cases hmc : m (c :: cs) with
      | some rest => exact (ih rest).trans (List.IsSuffix.sublist (hm _ _ hmc).1)
      | none => exact List.Sublist.cons₂ c (ih cs)

theorem removeByF_headOk {m : List Char → Option (List Char)} (hm : MatcherOk m) :
    ∀ (n : Nat) (l : List Char), headOk l (removeByF m n l) := by
  intro n
  induction n with
  | zero =>
    intro l
    cases l with
    | nil => exact Or.inl rfl
    | cons c cs => exact Or.inr (Or.inl ⟨c, cs, cs, rfl, rfl⟩)
  | succ n ih =>
    intro l
    cases l with
    | nil => exact Or.inl rfl
    | cons c cs =>
      rw [removeByF]
      cases hmc : m (c :: cs) with
      | some rest =>
        obtain ⟨-, -, hnw⟩ := hm _ _ hmc
        rcases ih rest with h1 | ⟨d, t, r, hdt, hout⟩ | ⟨d, r, hout, hw⟩
        · exact Or.inl h1
        · subst hdt
          exact Or.inr (Or.inr ⟨d, r, hout, hnw⟩)
        · exact Or.inr (Or.inr ⟨d, r, hout, hw⟩)
      | none => exact Or.inr (Or.inl ⟨c, cs, removeByF m n cs, rfl, rfl⟩)

theorem removeByF_id {m : List Char → Option (List Char)} :
    ∀ (n : Nat) (l : List Char), (∀ s, s <:+ l → m s = none) → removeByF m n l = l := by
  intro n
  induction n with
  | zero => intro l _; rfl
  | succ n ih =>
    intro l hl
    cases l with
    | nil => rfl
    | cons c cs =>
      rw [removeByF]
      rw [hl (c :: cs) (List.suffix_refl _)]
      rw [ih cs (fun s hs => hl s (hs.trans (List.suffix_cons c cs)))]

theorem removeByF_pair_mono {m : List Char → Option (List Char)}
    {p : Char → Char → Bool} (hm : MatcherOk m)
    (hp : ∀ a b, isWordChar b = false → p a b = false) :
    ∀ (n : Nat) (l : List Char),
      hasPair p (removeByF m n l) = true → hasPair p l = true := by
  intro n
  induction n with
  | zero => intro l h; exact h
  | succ n ih =>
    intro l h
    cases l with
    | nil => rw [removeByF] at h; cases h
    | cons c cs =>
      rw [removeByF] at h
      cases hmc : m (c :: cs) with
      | some rest =>
        rw [hmc] at h
        exact hasPair_suffix (hm _ _ hmc).1 (ih rest h)
      | none =>
        rw [hmc] at h
        cases hO : removeByF m n cs with
        | nil =>
          rw [hO] at h
          rw [hasPair_one] at h
          cases h
        | cons b r =>
          rw [hO, hasPair_cons_cons, Bool.or_eq_true] at h
          rcases h with h1 | h2
          · have hh := removeByF_headOk hm n cs
            rw [hO] at hh
            rcases hh with hh | ⟨d, t, r2, hdt, hout⟩ | ⟨d, r2, hout, hw⟩
            · cases hh
            · injection hout with hbd hrr
              subst hbd
              rw [hdt, hasPair_cons_cons, Bool.or_eq_true]
              exact .inl h1
            · injection hout with hbd hrr
              subst hbd
              rw [hp c b hw] at h1
              cases h1
          · exact hasPair_cons_of_tail (ih cs (by rw [hO]; exact h2))

theorem removeByF_pair_mono_false {m : List Char → Option (List Char)}
    {p : Char → Char → Bool} (hm : MatcherOk m)
    (hp : ∀ a b, isWordChar b = false → p a b = false)
    {n : Nat} {l : List Char} (h : hasPair p l = false) :
    hasPair p (removeByF m n l) = false := by
  by_contra hc
  rw [Bool.not_eq_false] at hc
  rw [removeByF_pair_mono hm hp n l hc] at h
  cases h

theorem removeByF_no_new_pair {m : List Char → Option (List Char)}
    {p : Char → Char → Bool} (hm : MatcherOk m)
    (hp : ∀ a b, isWordChar b = false → p a b = false)
    (hfail : ∀ a cs, m (a :: cs) = none → pairFail p a cs) :
    ∀ (n : Nat) (l : List Char), l.length ≤ n →
      hasPair p (removeByF m n l) = false := by
  intro n
  induction n with
  | zero =>
    intro l hl
    have h0 : l = [] := List.eq_nil_of_length_eq_zero (Nat.le_zero.mp hl)
    subst h0
    rfl
  | succ n ih =>
    intro l hl
    cases l with
    | nil => rw [removeByF_nil]; rfl
    | cons c cs =>
      rw [removeByF]
      cases hmc : m (c :: cs) with
      | some rest =>
        obtain ⟨-, hlen, -⟩ := hm _ _ hmc
        refine ih rest ?_
        simp only [List.length_cons] at hl hlen
        omega
      | none =>
        have hocs : hasPair p (removeByF m n cs) = false := by
          refine ih cs ?_
          simp only [List.length_cons] at hl
          omega
        cases hO : removeByF m n cs with
        | nil => rfl
        | cons b r =>
          rw [hasPair_cons_cons, Bool.or_eq_false_iff]
          constructor
          · have hh := removeByF_headOk hm n cs
            rw [hO] at hh
            rcases hh with hh | ⟨d, t, r2, hdt, hout⟩ | ⟨d, r2, hout, hw⟩
            · cases hh
            · injection hout with hbd hrr
              subst hbd
              have hf := hfail c cs hmc
              rw [hdt] at hf
              exact hf
            · injection hout with hbd hrr
              subst hbd
              exact hp c b hw
          · rw [hO] at hocs
            exact hocs

/-! Composition facts about the preprocessing pipeline. -/

theorem hasPair_trimChars_false {p : Char → Char → Bool} {l : List Char}
    (h : hasPair p l = false) : hasPair p (trimChars l) = false := by
  by_contra hc
  rw [Bool.not_eq_false] at hc
  rw [hasPair_trimChars hc] at h
  cases h

theorem removeMentions_noPair (l : List Char) :
    hasPair mentionPair (removeMentions l) = false :=
  removeByF_no_new_pair mentionRest_ok (fun _ _ hw => mentionPair_of_word hw)
    (fun _ _ hn => mentionRest_none_pairFail hn) l.length l (Nat.le_refl _)

theorem removeTags_noPair (l : List Char) :
    hasPair tagPair (removeTags l) = false :=
  removeByF_no_new_pair tagRest_ok (fun _ _ hw => tagPair_of_word hw)
    (fun _ _ hn => tagRest_none_pairFail hn) l.length l (Nat.le_refl _)

theorem cleanTextOf_noMention (t : List Char) :
    hasPair mentionPair (cleanTextOf t) = false :=
  hasPair_trimChars_false
    (removeByF_pair_mono_false tagRest_ok (fun _ _ hw => mentionPair_of_word hw)
      (removeMentions_noPair (removeUrls t)))

theorem cleanTextOf_noTag (t : List Char) :
    hasPair tagPair (cleanTextOf t) = false :=
  hasPair_trimChars_false (removeTags_noPair (removeMentions (removeUrls t)))

theorem cleanTextOf_mentions_fix (t : List Char) :
    removeMentions (cleanTextOf t) = cleanTextOf t :=
  removeByF_id _ _ (mention_none_of_noPair (cleanTextOf_noMention t))

theorem cleanTextOf_tags_fix (t : List Char) :
    removeTags (cleanTextOf t) = cleanTextOf t :=
  removeByF_id _ _ (tag_none_of_noPair (cleanTextOf_noTag t))

theorem cleanTextOf_trim_fix (t : List Char) :
    trimChars (cleanTextOf t) = cleanTextOf t :=
  trimChars_idem _

theorem cleanTextOf_sublist (t : List Char) : List.Sublist (cleanTextOf t) t :=
  (trimChars_sublist _).trans ((removeByF_sublist tagRest_ok _ _).trans
    ((removeByF_sublist mentionRest_ok _ _).trans (removeByF_sublist urlRest_ok _ _)))

theorem trimChars_dropWhile (l : List Char) :
    trimChars (l.dropWhile isJsWhitespace) = trimChars l := by
  unfold trimChars
  rw [dropWhile_of_head_false (fun c r h => dropWhile_head_false h)]

/-! Inversion of the extractor. -/

theorem all_true_of_sublist {p : Char → Bool} {s l : List Char}
    (hs : List.Sublist s l) (h : l.all p = true) : s.all p = true := by
  rw [List.all_eq_true] at h ⊢
  exact fun x hx => h x (hs.subset hx)

theorem parseVocabulary_some_inv {t e j : List Char}
    (h : parseVocabulary t = some (e, j)) :
    hasJapanese (cleanTextOf t) = true ∧
    e = trimChars ((cleanTextOf t).takeWhile (fun c => !isTargetChar c)) ∧
    j = trimChars ((cleanTextOf t).dropWhile (fun c => !isTargetChar c)) ∧
    hasEnglish e = true ∧ hasJapanese j = true := by
  simp only [parseVocabulary] at h
  split at h
  · rename_i h1
    split at h
    · rename_i h2
      injection h with h3
      rw [Prod.mk.injEq] at h3
      obtain ⟨he, hj⟩ := h3
      rw [Bool.and_eq_true, Bool.and_eq_true, Bool.and_eq_true] at h2
      obtain ⟨⟨⟨hE, hJp⟩, -⟩, -⟩ := h2
      exact ⟨h1, he.symm, hj.symm, he ▸ hE, hj ▸ hJp⟩
    · cases h
  · cases h

theorem parseVocabulary_none_of_noEnglish {t : List Char}
    (h : hasEnglish (trimChars ((cleanTextOf t).takeWhile
      (fun c => !isTargetChar c))) = false) :
    parseVocabulary t = none := by
  simp only [parseVocabulary]
  split
  · split
    · rename_i h2
      rw [Bool.and_eq_true, Bool.and_eq_true, Bool.and_eq_true] at h2
      obtain ⟨⟨⟨hE, -⟩, -⟩, -⟩ := h2
      rw [hE] at h
      cases h
    · rfl
  · rfl

theorem exists_dropWhile_target {l : List Char} (h : hasJapanese l = true) :
    ∃ c r, l.dropWhile (fun d => !isTargetChar d) = c :: r ∧
      isTargetChar c = true := by
  induction l with
  | nil => exact absurd h (by decide)
  | cons a as ih =>
    cases ha : isTargetChar a with
    | true =>
      have hna : ¬((fun d => !isTargetChar d) a = true) := by
        show ¬(!isTargetChar a) = true
        rw [ha]
        decide
      exact ⟨a, as, List.dropWhile_cons_of_neg hna, ha⟩
    | false =>
      have hpa : (fun d => !isTargetChar d) a = true := by
        show (!isTargetChar a) = true
        rw [ha]
        rfl
      have h2 : hasJapanese as = true := by
        have h3 := h
        unfold hasJapanese at h3 ⊢
        rw [List.any_cons, ha, Bool.false_or] at h3
        exact h3
      obtain ⟨c, r, hd, hct⟩ := ih h2
      refine ⟨c, r, ?_, hct⟩
      rw [List.dropWhile_cons_of_pos (p := fun d => !isTargetChar d) (l := as) hpa, hd]

/-! Claim theorems. -/

/-- Claim C1, counterexample: the input cat at-x cat-ideograph decomposes
as latinTerm, first target-script character and empty rest, with the
latinTerm containing a Latin letter and no target-script character, yet
extract does not return the pair of trimmed halves of the raw input: the
mention inside the latinTerm is removed by preprocessing first, so the
term comes out as cat rather than the trimmed raw latinTerm. -/
theorem C1_counterexample :
    ("cat @x 猫".toList = "cat @x ".toList ++ '猫' :: ([] : List Char)) ∧
    hasEnglish ("cat @x ".toList) = true ∧
    ("cat @x ".toList).all (fun d => !isTargetChar d) = true ∧
    isTargetChar '猫' = true ∧
    parseVocabulary ("cat @x 猫".toList) ≠
      some (trimChars ("cat @x ".toList), trimChars ('猫' :: [])) := by
  decide

/-- Claim C1, amended: for every input of the form latinTerm, first
target-script character, rest, where the latinTerm contains a basic
Latin letter, the target-script character is the first one of the input,
and the URL, mention and hashtag removal passes leave the input
unchanged, extract returns the pair of the trimmed latinTerm and the
trimmed remainder starting at the target-script character. -/
theorem C1_amended_split (pre post : List Char) (c : Char)
    (hfix : removeTags (removeMentions (removeUrls (pre ++ c :: post))) =
      pre ++ c :: post)
    (hlatin : hasEnglish pre = true)
    (hfirst : pre.all (fun d => !isTargetChar d) = true)
    (hc : isTargetChar c = true) :
    parseVocabulary (pre ++ c :: post) =
      some (trimChars pre, trimChars (c :: post)) := by
  obtain ⟨x, hxmem, hxlatin⟩ := List.any_eq_true.mp hlatin
  have hxws : isJsWhitespace x = false := latin_not_ws hxlatin
  have hcws : isJsWhitespace c = false := target_not_ws hc
  have hclean : cleanTextOf (pre ++ c :: post) = trimChars (pre ++ c :: post) := by
    unfold cleanTextOf
    rw [hfix]
  have hdw : (pre ++ c :: post).dropWhile isJsWhitespace
      = pre.dropWhile isJsWhitespace ++ c :: post :=
    dropWhile_append_of_mem hxws hxmem
  have hte : trimEnd (pre.dropWhile isJsWhitespace ++ c :: post)
      = pre.dropWhile isJsWhitespace ++ trimEnd (c :: post) :=
    trimEnd_append (List.mem_cons_self c post) hcws _
  obtain ⟨J2, hJ⟩ : ∃ J2, trimEnd (c :: post) = c :: J2 := by
    have hcJ : c ∈ trimEnd (c :: post) :=
      mem_trimEnd hcws (List.mem_cons_self c post)
    cases hJ0 : trimEnd (c :: post) with
    | nil => rw [hJ0] at hcJ; cases hcJ
    | cons d r =>
      obtain ⟨t2, ht2⟩ := trimEnd_head hJ0
      injection ht2 with hcd hrest
      exact ⟨r, by rw [← hcd]⟩
  have hsplit : trimChars (pre ++ c :: post)
      = pre.dropWhile isJsWhitespace ++ c :: J2 := by
    unfold trimChars
    rw [hdw, hte, hJ]
  have hA_all : (pre.dropWhile isJsWhitespace).all (fun d => !isTargetChar d) = true :=
    all_true_of_sublist (List.IsSuffix.sublist (List.dropWhile_suffix _)) hfirst
  have hcfalse : (fun d => !isTargetChar d) c = false := by
    show (!isTargetChar c) = false
    rw [hc]
    rfl
  have htake : (pre.dropWhile isJsWhitespace ++ c :: J2).takeWhile
      (fun d => !isTargetChar d) = pre.dropWhile isJsWhitespace :=
    takeWhile_append_all hcfalse hA_all
  have hdrop : (pre.dropWhile isJsWhitespace ++ c :: J2).dropWhile
      (fun d => !isTargetChar d) = c :: J2 :=
    dropWhile_append_all hcfalse hA_all
  have hjap2 : trimChars (c :: J2) = trimChars (c :: post) := by
    rw [← hJ]
    unfold trimChars
    rw [dropWhile_of_head_false (l := trimEnd (c :: post))
      (fun d r hdr => by
        obtain ⟨t3, ht3⟩ := trimEnd_head hdr
        injection ht3 with hcd hrest
        rw [← hcd]
        exact hcws)]
    rw [dropWhile_of_head_false (l := c :: post)
      (fun d r hdr => by
        injection hdr with hcd hrest
        rw [← hcd]
        exact hcws)]
    exact trimEnd_idem _
  have hEng : hasEnglish (trimChars pre) = true :=
    List.any_eq_true.mpr ⟨x, mem_trimChars hxmem hxws, hxlatin⟩
  have hJap : hasJapanese (trimChars (c :: post)) = true :=
    List.any_eq_true.mpr ⟨c, mem_trimChars (List.mem_cons_self c post) hcws, hc⟩
  have hEne : (trimChars pre).isEmpty = false := by
    cases hE0 : trimChars pre with
    | nil => rw [hE0] at hEng; exact absurd hEng (by decide)
    | cons a l => exact List.isEmpty_cons
  have hJne : (trimChars (c :: post)).isEmpty = false := by
    cases hJ0 : trimChars (c :: post) with
    | nil => rw [hJ0] at hJap; exact absurd hJap (by decide)
    | cons a l => exact List.isEmpty_cons
  have hJ3 : hasJapanese (pre.dropWhile isJsWhitespace ++ c :: J2) = true :=
    List.any_eq_true.mpr ⟨c, List.mem_append.mpr (Or.inr (List.mem_cons_self c J2)), hc⟩
  simp only [parseVocabulary]
  rw [hclean, hsplit, hJ3, htake, hdrop, trimChars_dropWhile, hjap2,
    hEng, hJap, hEne, hJne]
  rfl

/-- Claim C1, witness for the amended theorem at the input cat space
followed by the cat ideograph. -/
theorem C1_amended_split_witness :
    parseVocabulary ("cat ".toList ++ '猫' :: []) =
      some (trimChars ("cat ".toList), trimChars ('猫' :: [])) :=
  C1_amended_split "cat ".toList [] '猫' (by decide) (by decide) (by decide)
    (by decide)

/-- Claim C2: whenever extract returns a pair, the term contains a basic
Latin letter, the translation contains a target-script character, and
neither is empty after trimming; and an input whose candidate term
contains no Latin letter yields absence. -/
theorem C2_pair_validity :
    (∀ t e j, parseVocabulary t = some (e, j) →
      hasEnglish e = true ∧ hasJapanese j = true ∧
      trimChars e ≠ [] ∧ trimChars j ≠ []) ∧
    (∀ t, hasEnglish (trimChars ((cleanTextOf t).takeWhile
        (fun c => !isTargetChar c))) = false → parseVocabulary t = none) := by
  constructor
  · intro t e j h
    obtain ⟨h1, he, hj, hE, hJp⟩ := parseVocabulary_some_inv h
    have hte : trimChars e = e := by rw [he]; exact trimChars_idem _
    have htj : trimChars j = j := by rw [hj]; exact trimChars_idem _
    refine ⟨hE, hJp, ?_, ?_⟩
    · rw [hte]
      intro h0
      rw [h0] at hE
      exact absurd hE (by decide)
    · rw [htj]
      intro h0
      rw [h0] at hJp
      exact absurd hJp (by decide)
  · exact fun t h => parseVocabulary_none_of_noEnglish h

/-- Claim C2, witness: the successful case at the input cat plus cat
ideograph, and the absence case at an input whose candidate term is only
punctuation. -/
theorem C2_pair_validity_witness :
    (hasEnglish ("cat".toList) = true ∧ hasJapanese ("猫".toList) = true ∧
      trimChars ("cat".toList) ≠ [] ∧ trimChars ("猫".toList) ≠ []) ∧
    parseVocabulary ("!! 猫".toList) = none :=
  ⟨C2_pair_validity.1 ("cat 猫".toList) ("cat".toList) ("猫".toList) (by decide),
   C2_pair_validity.2 ("!! 猫".toList) (by decide)⟩

/-- Claim C3: every input with no target-script character yields absence. -/
theorem C3_no_target_absence (t : List Char) (h : hasJapanese t = false) :
    parseVocabulary t = none := by
  have h1 : hasJapanese (cleanTextOf t) = false :=
    any_false_of_sublist (cleanTextOf_sublist t) h
  simp only [parseVocabulary]
  rw [h1]
  rfl

/-- Claim C3, witness at whitespace-only input. -/
theorem C3_no_target_absence_witness : parseVocabulary ("   ".toList) = none :=
  C3_no_target_absence ("   ".toList) (by decide)

/-- Claim C4: the multi-word example returns the whole Latin phrase as
the term, split at the first target-script character. -/
theorem C4_multiword_example :
    parseVocabulary ("make a shift シフトの作成".toList) =
      some ("make a shift".toList, "シフトの作成".toList) := by
  decide

/-- Claim C5, counterexample: on the input http at-foo colon slash slash
example, one preprocessing pass removes the mention and thereby splices
together a URL, which a second pass removes, so preprocessing twice
differs from preprocessing once. -/
theorem C5_counterexample :
    cleanTextOf (cleanTextOf ("http@foo://example".toList)) ≠
      cleanTextOf ("http@foo://example".toList) := by
  decide

/-- Claim C5, amended: preprocessing applied twice equals preprocessing
applied once for every input on which a second URL-removal pass leaves
the once-preprocessed text unchanged; mention and hashtag removal leave
no mention or hashtag match behind, only a spliced URL can differ. -/
theorem C5_amended_idempotent (t : List Char)
    (hfix : removeUrls (cleanTextOf t) = cleanTextOf t) :
    cleanTextOf (cleanTextOf t) = cleanTextOf t := by
  show trimChars (removeTags (removeMentions (removeUrls (cleanTextOf t)))) =
    cleanTextOf t
  rw [hfix, cleanTextOf_mentions_fix, cleanTextOf_tags_fix, cleanTextOf_trim_fix]

/-- Claim C5, witness at an input carrying a mention, a hashtag and
surrounding whitespace. -/
theorem C5_amended_idempotent_witness :
    cleanTextOf (cleanTextOf (" cat @x 猫 #tag".toList)) =
      cleanTextOf (" cat @x 猫 #tag".toList) :=
  C5_amended_idempotent (" cat @x 猫 #tag".toList) (by decide)

/-- Claim C6: extract is total; on every input, including the empty one,
it returns either absence or a pair, absence being the only failure
signal. -/
theorem C6_totality :
    parseVocabulary [] = none ∧
    ∀ t : List Char, parseVocabulary t = none ∨
      ∃ e j, parseVocabulary t = some (e, j) := by
  refine ⟨by decide, fun t => ?_⟩
  cases h : parseVocabulary t with
  | none => exact Or.inl rfl
  | some p => exact Or.inr ⟨p.1, p.2, rfl⟩

/-- Claim C7: extract is deterministic; equal inputs give equal results,
and the embedding as a pure function of one argument reflects that no
outside state is read. -/
theorem C7_deterministic (t1 t2 : List Char) (h : t1 = t2) :
    parseVocabulary t1 = parseVocabulary t2 := by
  rw [h]

/-- Claim C7, witness at a concrete input. -/
theorem C7_deterministic_witness :
    parseVocabulary ("cat 猫".toList) = parseVocabulary ("cat 猫".toList) :=
  C7_deterministic ("cat 猫".toList) ("cat 猫".toList) rfl

/-- Claim C8: whenever extract returns a pair, the term contains no
target-script character, and every target-script character of the
cleaned text lies in the translation. -/
theorem C8_term_no_target {t e j : List Char}
    (h : parseVocabulary t = some (e, j)) :
    (∀ c ∈ e, isTargetChar c = false) ∧
    (∀ c ∈ cleanTextOf t, isTargetChar c = true → c ∈ j) := by
  obtain ⟨h1, he, hj, hE, hJp⟩ := parseVocabulary_some_inv h
  constructor
  · intro c hc
    rw [he] at hc
    have hc2 := (trimChars_sublist _).subset hc
    have hp : (!isTargetChar c) = true :=
      List.mem_takeWhile_imp (p := fun c => !isTargetChar c) hc2
    cases hb : isTargetChar c with
    | false => rfl
    | true => rw [hb] at hp; cases hp
  · intro c hcmem hct
    rw [← List.takeWhile_append_dropWhile (fun c => !isTargetChar c)
      (cleanTextOf t)] at hcmem
    rcases List.mem_append.mp hcmem with hA | hB
    · have hp : (!isTargetChar c) = true :=
        List.mem_takeWhile_imp (p := fun c => !isTargetChar c) hA
      rw [hct] at hp
      cases hp
    · rw [hj]
      exact mem_trimChars hB (target_not_ws hct)

/-- Claim C8, witness at the input cat plus cat ideograph. -/
theorem C8_term_no_target_witness :
    (∀ c ∈ "cat".toList, isTargetChar c = false) ∧
    (∀ c ∈ cleanTextOf ("cat 猫".toList), isTargetChar c = true →
      c ∈ "猫".toList) :=
  C8_term_no_target (t := "cat 猫".toList) (by decide)

/-- Claim C9: whenever extract returns a pair, the first character of the
translation is a target-script character. -/
theorem C9_translation_head_target {t e j : List Char}
    (h : parseVocabulary t = some (e, j)) :
    ∃ c r, j = c :: r ∧ isTargetChar c = true := by
  obtain ⟨h1, he, hj, hE, hJp⟩ := parseVocabulary_some_inv h
  obtain ⟨c, r, hd, hct⟩ := exists_dropWhile_target h1
  rw [hd] at hj
  have hcw : isJsWhitespace c = false := target_not_ws hct
  have hjj : j = trimEnd (c :: r) := by
    rw [hj]
    unfold trimChars
    rw [List.dropWhile_cons_of_neg (by rw [hcw]; exact Bool.false_ne_true)]
  cases hte : trimEnd (c :: r) with
  | nil =>
    rw [hte] at hjj
    rw [hjj] at hJp
    exact absurd hJp (by decide)
  | cons d r2 =>
    obtain ⟨t2, ht2⟩ := trimEnd_head hte
    injection ht2 with hcd hrest
    rw [hte] at hjj
    exact ⟨d, r2, hjj, hcd ▸ hct⟩

/-- Claim C9, witness at the input cat plus cat ideograph. -/
theorem C9_translation_head_target_witness :
    ∃ c r, "猫".toList = c :: r ∧ isTargetChar c = true :=
  C9_translation_head_target (t := "cat 猫".toList) (e := "cat".toList)
    (by decide)

/-- Claim C10: whenever the script-split extractor with term validation
returns a pair, the server-loop extractor returns the same pair on the
same input. -/
theorem C10_refinement {t e j : List Char}
    (h : parseVocabulary t = some (e, j)) :
    parseVocabularyServer t = some (e, j) := by
  obtain ⟨h1, he, hj, hE, hJp⟩ := parseVocabulary_some_inv h
  have hEc : hasEnglish (cleanTextOf t) = true := by
    have hsub : List.Sublist e (cleanTextOf t) := by
      rw [he]
      exact (trimChars_sublist _).trans (List.takeWhile_sublist _)
    exact any_true_of_sublist hsub hE
  have hene : e.isEmpty = false := by
    cases e with
    | nil => exact absurd hE (by decide)
    | cons a l => exact List.isEmpty_cons
  have hjne : j.isEmpty = false := by
    cases j with
    | nil => exact absurd hJp (by decide)
    | cons a l => exact List.isEmpty_cons
  simp only [parseVocabularyServer]
  rw [hEc, h1, ← he, ← hj, hene, hjne]
  rfl

/-- Claim C10, witness at the input cat plus cat ideograph. -/
theorem C10_refinement_witness :
    parseVocabularyServer ("cat 猫".toList) =
      some ("cat".toList, "猫".toList) :=
  C10_refinement (t := "cat 猫".toList) (by decide)

end TwitterMonitor
